import Mathlib

/-!
Verification of the folder-hierarchy model of the SimplyTerm Folders plugin.

The definitions below are a shallow embedding of the plugin source
(the revision with the cycle guard, change events and home panel, which is
the revision the specification describes).  Plugin state is a list of
folder records plus a session-to-folder assignment map.  JavaScript
truthiness tests in the source (`updates.parentId && ...`, `if (folderId)`,
`sessionFolders[id] || null`, `!f.parentId`, `color || default`) are
embedded exactly: the empty string is falsy, every other string is truthy.
-/

namespace SimplyTermFolders

/-- One folder record, as stored in the folders list of the plugin. -/
structure Folder where
  id : String
  name : String
  color : String
  parentId : Option String
  order : Int
deriving Repr, DecidableEq

/-- Truthiness of an optional string under JavaScript rules:
null (none) and the empty string are falsy, all other strings truthy. -/
def truthyOptStr : Option String → Bool
  | none => false
  | some s => !(s == "")

/-- The folders whose parentId field equals the given id
(the linear scan `folders.filter(f => f.parentId === folderId)`). -/
def childrenOf (fs : List Folder) (x : String) : List Folder :=
  fs.filter (fun f => f.parentId == some x)

/-- Fueled form of the recursion in getDescendantFolderIds: for each child,
push its id and recurse on that id, depth-first pre-order.  The source
recursion carries no fuel; the fuel only bounds the recursion depth, and
is shown below to be irrelevant above the list length on acyclic input. -/
def gDFIFuel (fs : List Folder) : Nat → String → List String
  | 0, _ => []
  | n+1, x => (childrenOf fs x).flatMap (fun c => c.id :: gDFIFuel fs n c.id)

/-- Embedding of getDescendantFolderIds: depth-first pre-order listing of
the descendant folder ids, with fuel equal to the folder count, which is
enough on every acyclic state. -/
def getDescendantFolderIds (fs : List Folder) (x : String) : List String :=
  gDFIFuel fs fs.length x

/-- The descendant relation of the model: Desc fs x y holds when the
folder id y is reachable from the id x by following the child relation
(folder f is a child of x when f.parentId = some x). -/
inductive Desc (fs : List Folder) : String → String → Prop
  | child {x : String} (f : Folder) : f ∈ fs → f.parentId = some x → Desc fs x f.id
  | tail {x y : String} (f : Folder) :
      f ∈ fs → f.parentId = some x → Desc fs f.id y → Desc fs x y

/-- Acyclicity of the parentId relation: no id is its own descendant. -/
def Acyclic (fs : List Folder) : Prop := ∀ x, ¬ Desc fs x x

/-- The session-to-folder assignment map: absent key means unassigned. -/
def SessionMap : Type := String → Option String

/-- The in-memory plugin state: the folders list and the assignment map. -/
structure State where
  folders : List Folder
  sessionFolders : SessionMap

/-- Embedding of createFolder: builds the record with the generated id,
default color on a falsy color argument, order equal to the current
sibling count under the same parentId, and pushes it onto the list.
Returns the new record and the new list. -/
def createFolder (fs : List Folder) (newId : String) (name : String)
    (color : Option String) (parentId : Option String) : Folder × List Folder :=
  let folder : Folder :=
    { id := newId
      name := name
      color := if truthyOptStr color then color.getD "#6c7086" else "#6c7086"
      parentId := parentId
      order := (fs.filter (fun f => f.parentId == parentId)).length }
  (folder, fs ++ [folder])

/-- The update argument of updateFolder: none means the field is absent
from the update object, some v means it is present with value v.  For
parentId the present value is itself nullable. -/
structure FolderUpdates where
  name : Option String := none
  color : Option String := none
  parentId : Option (Option String) := none
  order : Option Int := none
deriving Repr, DecidableEq

/-- The circular-reference guard of updateFolder: taken exactly when the
requested parentId value is truthy and equals the target id or lies in
its descendant listing. -/
def cycleGuardTriggers (fs : List Folder) (id : String) (u : FolderUpdates) : Bool :=
  match u.parentId with
  | some (some p) =>
      !(p == "") && (p == id || (getDescendantFolderIds fs id).contains p)
  | _ => false

/-- Field application of updateFolder: every field present in the update
is written, absent fields keep the prior value. -/
def applyUpdates (f : Folder) (u : FolderUpdates) : Folder :=
  { f with
    name := u.name.getD f.name
    color := u.color.getD f.color
    parentId := match u.parentId with
      | some p => p
      | none => f.parentId
    order := u.order.getD f.order }

/-- Rewrites the first folder in the list whose id matches, leaving every
other element untouched; the source mutates the object found by find. -/
def mapFirstById (fs : List Folder) (id : String) (g : Folder → Folder) : List Folder :=
  match fs with
  | [] => []
  | f :: rest => if f.id == id then g f :: rest else f :: mapFirstById rest id g

/-- Embedding of updateFolder.  Result: the returned value (null on an
unknown id or a guarded re-parent), the folders list after the call, and
whether saveFolders was reached.  On the guarded path the source has
already written name and color before returning null, and does not save. -/
def updateFolder (fs : List Folder) (id : String) (u : FolderUpdates) :
    Option Folder × List Folder × Bool :=
  match fs.find? (fun f => f.id == id) with
  | none => (none, fs, false)
  | some f =>
    if cycleGuardTriggers fs id u then
      (none,
       mapFirstById fs id (fun f =>
         { f with name := u.name.getD f.name, color := u.color.getD f.color }),
       false)
    else
      (some (applyUpdates f u), mapFirstById fs id (fun f => applyUpdates f u), true)

/-- Embedding of deleteFolder: collects the target id with its descendant
listing, drops every assignment whose folder id is in that collection,
and drops every folder whose id is in it. -/
def deleteFolder (st : State) (id : String) : State :=
  let allFolderIds := id :: getDescendantFolderIds st.folders id
  { folders := st.folders.filter (fun f => !(allFolderIds.contains f.id))
    sessionFolders := fun s =>
      match st.sessionFolders s with
      | some v => if allFolderIds.contains v then none else some v
      | none => none }

/-- Embedding of moveSessionToFolder: a truthy folder id is stored, a
falsy one (null, empty string) deletes the entry. -/
def moveSessionToFolder (sf : SessionMap) (sessionId : String)
    (folderId : Option String) : SessionMap :=
  if truthyOptStr folderId then
    fun s => if s == sessionId then folderId else sf s
  else
    fun s => if s == sessionId then none else sf s

/-- Embedding of getSessionFolder: the stored value if truthy, else null. -/
def getSessionFolder (sf : SessionMap) (sessionId : String) : Option String :=
  if truthyOptStr (sf sessionId) then sf sessionId else none

/-- Embedding of loadFolders: the storage read and the JSON parse are
external capabilities, modelled by their outcomes; any failure of either
is caught and yields the empty list. -/
def loadFolders (readResult : Except String String)
    (parseFolders : String → Except String (List Folder)) : List Folder :=
  match readResult with
  | .error _ => []
  | .ok content =>
    match parseFolders content with
    | .error _ => []
    | .ok fs => fs

/-- Embedding of loadSessionFolders: same catch-all shape, defaulting to
the empty mapping. -/
def loadSessionFolders (readResult : Except String String)
    (parseMap : String → Except String SessionMap) : SessionMap :=
  match readResult with
  | .error _ => fun _ => none
  | .ok content =>
    match parseMap content with
    | .error _ => fun _ => none
    | .ok m => m

/-- The sibling comparison used by the renderers: the source comparator
(a, b) => a.order - b.order sorts ascending by order and the host sort is
stable, embedded as a stable merge sort on the order field. -/
def byOrder (a b : Folder) : Bool := a.order ≤ b.order

/-- The root sibling group of the tree view: folders with a falsy
parentId (null or empty), sorted stably by order ascending. -/
def rootFoldersView (fs : List Folder) : List Folder :=
  (fs.filter (fun f => !truthyOptStr f.parentId)).mergeSort byOrder

/-- The child sibling group of one folder in the tree view: folders whose
parentId equals that folder id, sorted stably by order ascending. -/
def childFoldersView (fs : List Folder) (folderId : String) : List Folder :=
  (fs.filter (fun f => f.parentId == some folderId)).mergeSort byOrder

/-- The reachable-states relation of the model: any sequence of the four
mutating operations from a start state.  The generated id of a create
step is modelled as an oracle input subject to the freshness the source
obtains from its timestamp-and-randomness scheme: the new id is not the
id or the parentId of any existing folder, is not the requested parent,
and is not the empty string. -/
inductive Reachable : State → State → Prop
  | refl (s : State) : Reachable s s
  | create (s0 s : State) (newId name : String) (color parentId : Option String)
      (hfresh : ∀ f ∈ s.folders, f.id ≠ newId ∧ f.parentId ≠ some newId)
      (hne : newId ≠ "") (hself : parentId ≠ some newId)
      (h : Reachable s0 s) :
      Reachable s0 { s with folders := (createFolder s.folders newId name color parentId).2 }
  | update (s0 s : State) (id : String) (u : FolderUpdates) (h : Reachable s0 s) :
      Reachable s0 { s with folders := (updateFolder s.folders id u).2.1 }
  | delete (s0 s : State) (id : String) (h : Reachable s0 s) :
      Reachable s0 (deleteFolder s id)
  | move (s0 s : State) (sessionId : String) (folderId : Option String)
      (h : Reachable s0 s) :
      Reachable s0 { s with
        sessionFolders := moveSessionToFolder s.sessionFolders sessionId folderId }


/-- All folder ids of the state are truthy strings. -/
def IdsNonEmpty (fs : List Folder) : Prop := ∀ f ∈ fs, f.id ≠ ""

/-- Concrete folder records for evaluating the theorems: a two-level
chain a <- b <- c. -/
def A : Folder := ⟨"a", "Alpha", "#6c7086", none, 0⟩

/-- Concrete folder: child of A. -/
def B : Folder := ⟨"b", "Beta", "#6c7086", some "a", 0⟩

/-- Concrete folder: child of B. -/
def C : Folder := ⟨"c", "Gamma", "#6c7086", some "b", 1⟩

/-- Concrete acyclic forest used by the evaluation theorems. -/
def fsW : List Folder := [A, B, C]

/-- Concrete assignment map: session s1 sits in folder b. -/
def sfW : SessionMap := fun s => if s == "s1" then some "b" else none

/-- Concrete state over fsW and sfW. -/
def stW : State := ⟨fsW, sfW⟩

/-- A folder whose id is the empty string, legal in a persisted document. -/
def folderE : Folder := ⟨"", "Eps", "#6c7086", none, 0⟩

/-- Forest holding only the empty-id folder. -/
def fsE : List Folder := [folderE]

/-- The empty-id folder after the guard-bypassing self re-parent. -/
def folderE2 : Folder := ⟨"", "Eps", "#6c7086", some "", 0⟩

/-- State over fsE with no assignments. -/
def stE : State := ⟨fsE, fun _ => none⟩

/-- The state reached from stE by the guard-bypassing re-parent. -/
def stE2 : State := ⟨[folderE2], fun _ => none⟩

/-- A concrete update argument touching name and order only. -/
def uW : FolderUpdates := { name := some "Beta2", order := some 5 }

/-- The empty assignment map. -/
def sfW0 : SessionMap := fun _ => none

/-- A parse capability that always fails, for the load theorems. -/
def parseFailF : String → Except String (List Folder) := fun _ => .error "parse"

/-- A parse capability for assignment maps that always fails. -/
def parseFailM : String → Except String SessionMap := fun _ => .error "parse"

theorem Desc.trans {fs : List Folder} {x y z : String}
    (h1 : Desc fs x y) (h2 : Desc fs y z) : Desc fs x z := by
  induction h1 with
  | child f hf hp => exact Desc.tail f hf hp h2
  | tail f hf hp _ ih => exact Desc.tail f hf hp (ih h2)

theorem mem_childrenOf {fs : List Folder} {x : String} {f : Folder} :
    f ∈ childrenOf fs x ↔ f ∈ fs ∧ f.parentId = some x := by
  simp [childrenOf, List.mem_filter]

theorem mem_gDFIFuel_succ {fs : List Folder} {n : Nat} {x y : String} :
    y ∈ gDFIFuel fs (n+1) x ↔
      ∃ c ∈ childrenOf fs x, y = c.id ∨ y ∈ gDFIFuel fs n c.id := by
  simp [gDFIFuel, List.mem_flatMap]

/-- Membership in the fueled descendant listing is monotone in the fuel. -/
theorem mem_gDFIFuel_mono {fs : List Folder} {n m : Nat} {x y : String}
    (hnm : n ≤ m) (h : y ∈ gDFIFuel fs n x) : y ∈ gDFIFuel fs m x := by
  induction n generalizing x m with
  | zero => simp [gDFIFuel] at h
  | succ k ih =>
    obtain ⟨m', rfl⟩ : ∃ m', m = m' + 1 :=
      ⟨m - 1, by omega⟩
    rw [mem_gDFIFuel_succ] at h
    obtain ⟨c, hc, hy⟩ := h
    rw [mem_gDFIFuel_succ]
    refine ⟨c, hc, ?_⟩
    rcases hy with rfl | hy
    · exact Or.inl rfl
    · exact Or.inr (ih (by omega) hy)

/-- Soundness: every id in the fueled listing is a descendant. -/
theorem desc_of_mem_gDFIFuel {fs : List Folder} {n : Nat} {x y : String}
    (h : y ∈ gDFIFuel fs n x) : Desc fs x y := by
  induction n generalizing x with
  | zero => simp [gDFIFuel] at h
  | succ k ih =>
    rw [mem_gDFIFuel_succ] at h
    obtain ⟨c, hc, hy⟩ := h
    rw [mem_childrenOf] at hc
    rcases hy with rfl | hy
    · exact Desc.child c hc.1 hc.2
    · exact Desc.trans (Desc.child c hc.1 hc.2) (ih hy)

/-- Completeness for some fuel: every descendant shows up in the fueled
listing once the fuel is large enough. -/
theorem exists_fuel_of_desc {fs : List Folder} {x y : String}
    (h : Desc fs x y) : ∃ n, y ∈ gDFIFuel fs n x := by
  induction h with
  | child f hf hp =>
    exact ⟨1, by rw [mem_gDFIFuel_succ]; exact ⟨f, mem_childrenOf.mpr ⟨hf, hp⟩, Or.inl rfl⟩⟩
  | tail f hf hp _ ih =>
    obtain ⟨n, hn⟩ := ih
    exact ⟨n + 1, by
      rw [mem_gDFIFuel_succ]
      exact ⟨f, mem_childrenOf.mpr ⟨hf, hp⟩, Or.inr hn⟩⟩

/-- Every descendant id is the id of some folder in the list. -/
theorem exists_folder_of_desc {fs : List Folder} {x y : String}
    (h : Desc fs x y) : ∃ f ∈ fs, f.id = y := by
  induction h with
  | child f hf _ => exact ⟨f, hf, rfl⟩
  | tail _ _ _ _ ih => exact ih

/-- Every id in the fueled listing is the id of some folder in the list. -/
theorem exists_folder_of_mem_gDFIFuel {fs : List Folder} {n : Nat} {x y : String}
    (h : y ∈ gDFIFuel fs n x) : ∃ f ∈ fs, f.id = y :=
  exists_folder_of_desc (desc_of_mem_gDFIFuel h)

/-- Core of the termination argument: along any recursion path the set of
avoided ids (the current id together with its strict ancestors on the
path) grows by one fresh folder id per level, so on an acyclic state the
recursion bottoms out before the fuel does, and one more unit of fuel
changes nothing.  The list avoid collects the path; b is the id the
recursion started from, the only member of avoid allowed to be outside
the folder ids. -/
theorem gDFIFuel_stab_aux {fs : List Folder} (hac : Acyclic fs) :
    ∀ (n : Nat) (x b : String) (avoid : List String),
      avoid.Nodup → x ∈ avoid →
      (∀ a ∈ avoid, a = x ∨ Desc fs a x) →
      (∀ a ∈ avoid, a = b ∨ a ∈ fs.map (·.id)) →
      fs.length + 1 ≤ n + avoid.length →
      gDFIFuel fs n x = gDFIFuel fs (n+1) x := by
  intro n
  induction n with
  | zero =>
    intro x b avoid hnd hx hanc hids hlen
    -- with zero fuel the avoid list already exhausts every folder id,
    -- so x can have no children and both sides are empty
    have hchildren : childrenOf fs x = [] := by
      by_contra hne
      obtain ⟨c, hc⟩ := List.exists_mem_of_ne_nil _ hne
      rw [mem_childrenOf] at hc
      have hdxc : Desc fs x c.id := Desc.child c hc.1 hc.2
      have hcid : c.id ∉ avoid := by
        intro hmem
        rcases hanc c.id hmem with heq | hd
        · exact hac x (heq ▸ hdxc)
        · exact hac x (Desc.trans hdxc hd)
      have hsub : (c.id :: avoid) ⊆ b :: fs.map (·.id) := by
        intro a ha
        rcases List.mem_cons.mp ha with rfl | ha
        · exact List.mem_cons_of_mem _ (List.mem_map.mpr ⟨c, hc.1, rfl⟩)
        · rcases hids a ha with rfl | h
          · exact List.mem_cons_self _ _
          · exact List.mem_cons_of_mem _ h
      have hnd2 : (c.id :: avoid).Nodup := List.nodup_cons.mpr ⟨hcid, hnd⟩
      have := (List.subperm_of_subset hnd2 hsub).length_le
      simp at this
      omega
    simp [gDFIFuel, hchildren]
  | succ k ih =>
    intro x b avoid hnd hx hanc hids hlen
    simp only [gDFIFuel]
    apply List.flatMap_congr
    intro c hcmem
    have hc := mem_childrenOf.mp hcmem
    have hdxc : Desc fs x c.id := Desc.child c hc.1 hc.2
    have hcid : c.id ∉ avoid := by
      intro hmem
      rcases hanc c.id hmem with heq | hd
      · exact hac x (heq ▸ hdxc)
      · exact hac x (Desc.trans hdxc hd)
    have := ih c.id b (c.id :: avoid)
      (List.nodup_cons.mpr ⟨hcid, hnd⟩)
      (List.mem_cons_self _ _)
      (by
        intro a ha
        rcases List.mem_cons.mp ha with rfl | ha
        · exact Or.inl rfl
        · rcases hanc a ha with rfl | hd
          · exact Or.inr hdxc
          · exact Or.inr (Desc.trans hd hdxc))
      (by
        intro a ha
        rcases List.mem_cons.mp ha with rfl | ha
        · exact Or.inr (List.mem_map.mpr ⟨c, hc.1, rfl⟩)
        · exact hids a ha)
      (by simp; omega)
    rw [this]
    simp [gDFIFuel]

/-- On an acyclic state the fueled listing is the same for every fuel at
least the folder count: the recursion of getDescendantFolderIds has
terminated by then. -/
theorem gDFIFuel_stab {fs : List Folder} (hac : Acyclic fs) {n : Nat} (x : String)
    (hn : fs.length ≤ n) : gDFIFuel fs n x = getDescendantFolderIds fs x := by
  rw [getDescendantFolderIds]
  obtain ⟨k, rfl⟩ : ∃ k, n = fs.length + k := ⟨n - fs.length, by omega⟩
  induction k with
  | zero => rfl
  | succ m ih =>
    rw [← ih (by omega)]
    exact (gDFIFuel_stab_aux hac (fs.length + m) x x [x]
      (List.nodup_singleton x) (List.mem_singleton_self x)
      (by intro a ha; rw [List.mem_singleton] at ha; exact Or.inl ha)
      (by intro a ha; rw [List.mem_singleton] at ha; exact Or.inl ha)
      (by simp)).symm

/-- On an acyclic state, membership in getDescendantFolderIds is exactly
the descendant relation. -/
theorem mem_gDFI_iff_desc {fs : List Folder} (hac : Acyclic fs) {x y : String} :
    y ∈ getDescendantFolderIds fs x ↔ Desc fs x y := by
  constructor
  · exact fun h => desc_of_mem_gDFIFuel h
  · intro h
    obtain ⟨n, hn⟩ := exists_fuel_of_desc h
    have h2 : y ∈ gDFIFuel fs (max n fs.length) x :=
      mem_gDFIFuel_mono (Nat.le_max_left _ _) hn
    rw [gDFIFuel_stab hac x (Nat.le_max_right _ _)] at h2
    exact h2


/-- The descendant relation only looks at the id and parentId fields: it
transfers along any map that preserves them memberwise. -/
theorem desc_of_le {fs1 fs2 : List Folder}
    (H : ∀ f ∈ fs2, ∃ g ∈ fs1, g.id = f.id ∧ g.parentId = f.parentId)
    {x y : String} (h : Desc fs2 x y) : Desc fs1 x y := by
  induction h with
  | child f hf hp =>
    obtain ⟨g, hg, hid, hpid⟩ := H f hf
    exact hid ▸ Desc.child g hg (hpid.trans hp)
  | tail f hf hp hd ih =>
    obtain ⟨g, hg, hid, hpid⟩ := H f hf
    exact Desc.tail g hg (hpid.trans hp) (hid ▸ ih)

theorem mapFirstById_mem {fs : List Folder} {id : String} {g : Folder → Folder}
    {f2 : Folder} (h : f2 ∈ mapFirstById fs id g) :
    f2 ∈ fs ∨ ∃ f ∈ fs, f.id = id ∧ f2 = g f := by
  induction fs with
  | nil => simp [mapFirstById] at h
  | cons f rest ih =>
    rw [mapFirstById] at h
    by_cases hid : (f.id == id) = true
    · rw [if_pos hid] at h
      rcases List.mem_cons.mp h with rfl | h
      · exact Or.inr ⟨f, List.mem_cons_self _ _, by simpa using hid, rfl⟩
      · exact Or.inl (List.mem_cons_of_mem _ h)
    · rw [if_neg hid] at h
      rcases List.mem_cons.mp h with rfl | h
      · exact Or.inl (List.mem_cons_self _ _)
      · rcases ih h with h | ⟨f1, hf1, he, hq⟩
        · exact Or.inl (List.mem_cons_of_mem _ h)
        · exact Or.inr ⟨f1, List.mem_cons_of_mem _ hf1, he, hq⟩

theorem mapFirstById_of_not_found {fs : List Folder} {id : String}
    {g : Folder → Folder} (h : ∀ f ∈ fs, f.id ≠ id) :
    mapFirstById fs id g = fs := by
  induction fs with
  | nil => rfl
  | cons f rest ih =>
    rw [mapFirstById, if_neg, ih (fun f hf => h f (List.mem_cons_of_mem _ hf))]
    simp [h f (List.mem_cons_self _ _)]

theorem mapFirstById_append {pre : List Folder} {f : Folder} {post : List Folder}
    {id : String} {g : Folder → Folder}
    (hpre : ∀ a ∈ pre, a.id ≠ id) (hf : f.id = id) :
    mapFirstById (pre ++ f :: post) id g = pre ++ g f :: post := by
  induction pre with
  | nil => simp [mapFirstById, hf]
  | cons a rest ih =>
    rw [List.cons_append, mapFirstById, if_neg, List.cons_append,
      ih (fun b hb => hpre b (List.mem_cons_of_mem _ hb))]
    simp [hpre a (List.mem_cons_self _ _)]

theorem mapFirstById_id_eq {fs : List Folder} {id : String} {g : Folder → Folder}
    (hg : ∀ f, (g f).id = f.id) :
    (mapFirstById fs id g).map (·.id) = fs.map (·.id) := by
  induction fs with
  | nil => rfl
  | cons f rest ih =>
    rw [mapFirstById]
    by_cases hid : (f.id == id) = true
    · simp [hid, hg]
    · simp [hid, ih]

/-- Shape of a descendant chain after a re-parent: either the chain never
uses the new parent edge and was already there, or it can be split at the
new edge, giving a prefix reaching the new parent and a suffix starting
at the re-parented id, both in the old state. -/
theorem desc_reparent {fs : List Folder} {id : String} {g : Folder → Folder}
    {newp : Option String}
    (hgid : ∀ f, (g f).id = f.id) (hgpar : ∀ f, (g f).parentId = newp)
    {x y : String} (h : Desc (mapFirstById fs id g) x y) :
    Desc fs x y ∨
      ∃ p, newp = some p ∧ (x = p ∨ Desc fs x p) ∧ (y = id ∨ Desc fs id y) := by
  induction h with
  | @child x1 f2 hf2 hp2 =>
    rcases mapFirstById_mem hf2 with hf2 | ⟨f, hf, hfid, rfl⟩
    · exact Or.inl (Desc.child f2 hf2 hp2)
    · refine Or.inr ⟨x1, ?_, Or.inl rfl, Or.inl ?_⟩
      · rw [← hgpar f]; exact hp2
      · rw [hgid f]; exact hfid
  | @tail x1 y1 f2 hf2 hp2 hd ih =>
    rcases mapFirstById_mem hf2 with hm | ⟨f, hf, hfid, rfl⟩
    · have hedge : Desc fs x1 f2.id := Desc.child f2 hm hp2
      rcases ih with ih | ⟨p, hnp, hxp, hyp⟩
      · exact Or.inl (Desc.tail f2 hm hp2 ih)
      · refine Or.inr ⟨p, hnp, Or.inr ?_, hyp⟩
        rcases hxp with heq | hxp
        · exact heq ▸ hedge
        · exact Desc.trans hedge hxp
    · have hnsx : newp = some x1 := by rw [← hgpar f]; exact hp2
      have hgf : (g f).id = id := by rw [hgid f]; exact hfid
      rcases ih with ih | ⟨p, hnp, hxp, hyp⟩
      · exact Or.inr ⟨x1, hnsx, Or.inl rfl, Or.inr (hgf ▸ ih)⟩
      · exact Or.inr ⟨x1, hnsx, Or.inl rfl, hyp⟩

/-- A re-parent whose new parent is null, or neither the target id nor a
descendant of it, keeps the state acyclic. -/
theorem reparent_acyclic {fs : List Folder} {id : String} {g : Folder → Folder}
    {newp : Option String} (hac : Acyclic fs)
    (hgid : ∀ f, (g f).id = f.id) (hgpar : ∀ f, (g f).parentId = newp)
    (hnew : ∀ p, newp = some p → p ≠ id ∧ ¬ Desc fs id p) :
    Acyclic (mapFirstById fs id g) := by
  intro z hz
  rcases desc_reparent hgid hgpar hz with hz | ⟨p, hnp, hzp, hidz⟩
  · exact hac z hz
  · obtain ⟨hpid, hnd⟩ := hnew p hnp
    rcases hzp with rfl | hzp
    · rcases hidz with rfl | hidz
      · exact hpid rfl
      · exact hnd hidz
    · rcases hidz with rfl | hidz
      · exact hnd hzp
      · exact hnd (Desc.trans hidz hzp)

/-- An update that preserves the id and parentId fields of the rewritten
folder preserves the descendant relation, hence acyclicity. -/
theorem samepar_acyclic {fs : List Folder} {id : String} {g : Folder → Folder}
    (hac : Acyclic fs)
    (hgid : ∀ f, (g f).id = f.id) (hgpar : ∀ f, (g f).parentId = f.parentId) :
    Acyclic (mapFirstById fs id g) := by
  intro z hz
  refine hac z (desc_of_le ?_ hz)
  intro f2 hf2
  rcases mapFirstById_mem hf2 with hm | ⟨f, hf, _, rfl⟩
  · exact ⟨f2, hm, rfl, rfl⟩
  · exact ⟨f, hf, (hgid f).symm, (hgpar f).symm⟩

/-- An id with no incoming parentId pointer has no descendants. -/
theorem no_desc_of_no_child {fs : List Folder} {w : String}
    (h : ∀ f ∈ fs, f.parentId ≠ some w) {y : String} : ¬ Desc fs w y := by
  intro hd
  cases hd with
  | child f hf hp => exact h f hf hp
  | tail f hf hp _ => exact h f hf hp

/-- Appending a folder with a fresh id (never an existing id nor an
existing or requested parent pointer) keeps the state acyclic. -/
theorem create_acyclic {fs : List Folder} {n : Folder} (hac : Acyclic fs)
    (hfresh : ∀ f ∈ fs, f.id ≠ n.id ∧ f.parentId ≠ some n.id)
    (hself : n.parentId ≠ some n.id) :
    Acyclic (fs ++ [n]) := by
  have hout : ∀ f ∈ fs ++ [n], f.parentId ≠ some n.id := by
    intro f hf
    rcases List.mem_append.mp hf with hf | hf
    · exact (hfresh f hf).2
    · rw [List.mem_singleton] at hf
      exact hf ▸ hself
  have keyF : ∀ x y, Desc (fs ++ [n]) x y → Desc fs x y ∨ y = n.id := by
    intro x y h
    induction h with
    | child f2 hf2 hp2 =>
      rcases List.mem_append.mp hf2 with hm | hm
      · exact Or.inl (Desc.child f2 hm hp2)
      · rw [List.mem_singleton] at hm
        exact Or.inr (by rw [hm])
    | tail f2 hf2 hp2 hd ih =>
      rcases List.mem_append.mp hf2 with hm | hm
      · rcases ih with ih | ih
        · exact Or.inl (Desc.tail f2 hm hp2 ih)
        · exact Or.inr ih
      · rw [List.mem_singleton] at hm
        subst hm
        exact absurd hd (no_desc_of_no_child hout)
  intro z hz
  rcases keyF z z hz with hz | rfl
  · exact hac z hz
  · exact no_desc_of_no_child hout hz

/-- Removing folders can only remove descendant chains. -/
theorem desc_of_filter {fs : List Folder} {p : Folder → Bool} {x y : String}
    (h : Desc (fs.filter p) x y) : Desc fs x y :=
  desc_of_le (fun f hf => ⟨f, (List.mem_filter.mp hf).1, rfl, rfl⟩) h

theorem filter_acyclic {fs : List Folder} {p : Folder → Bool} (hac : Acyclic fs) :
    Acyclic (fs.filter p) := fun z hz => hac z (desc_of_filter hz)

theorem updateFolder_eq_notfound {fs : List Folder} {id : String} {u : FolderUpdates}
    (hfind : fs.find? (fun f => f.id == id) = none) :
    updateFolder fs id u = (none, fs, false) := by
  simp [updateFolder, hfind]

theorem updateFolder_eq_guard {fs : List Folder} {id : String} {u : FolderUpdates}
    {f : Folder} (hfind : fs.find? (fun f => f.id == id) = some f)
    (hg : cycleGuardTriggers fs id u = true) :
    updateFolder fs id u =
      (none,
       mapFirstById fs id (fun f =>
         { f with name := u.name.getD f.name, color := u.color.getD f.color }),
       false) := by
  simp [updateFolder, hfind, hg]

theorem updateFolder_eq_ok {fs : List Folder} {id : String} {u : FolderUpdates}
    {f : Folder} (hfind : fs.find? (fun f => f.id == id) = some f)
    (hg : cycleGuardTriggers fs id u = false) :
    updateFolder fs id u =
      (some (applyUpdates f u), mapFirstById fs id (fun f => applyUpdates f u), true) := by
  simp [updateFolder, hfind, hg]

theorem applyUpdates_id (f : Folder) (u : FolderUpdates) :
    (applyUpdates f u).id = f.id := rfl

/-- On a state with truthy ids, a re-parent request that survives the
guard names a parent that is neither the target nor one of its
descendants. -/
theorem guard_false_safe {fs : List Folder} {id : String} {u : FolderUpdates}
    {f : Folder} {p : String} (hac : Acyclic fs) (hne : IdsNonEmpty fs)
    (hfind : fs.find? (fun f => f.id == id) = some f)
    (hg : cycleGuardTriggers fs id u = false) (hup : u.parentId = some (some p)) :
    p ≠ id ∧ ¬ Desc fs id p := by
  have hfmem : f ∈ fs := List.mem_of_find?_eq_some hfind
  have hfid : f.id = id := by simpa using List.find?_some hfind
  have hidne : id ≠ "" := hfid ▸ hne f hfmem
  have htrue : p ≠ "" → (p = id ∨ p ∈ getDescendantFolderIds fs id) →
      cycleGuardTriggers fs id u = true := by
    intro h1 h2
    simp [cycleGuardTriggers, hup, h1]
    rcases h2 with h2 | h2
    · exact Or.inl h2
    · exact Or.inr h2
  constructor
  · intro hpid
    rw [hg] at htrue
    exact absurd (htrue (hpid ▸ hidne) (Or.inl hpid)) (by simp)
  · intro hd
    obtain ⟨f2, hf2, hf2id⟩ := exists_folder_of_desc hd
    rw [hg] at htrue
    exact absurd
      (htrue (hf2id ▸ hne f2 hf2) (Or.inr ((mem_gDFI_iff_desc hac).mpr hd)))
      (by simp)

/-- The folders list after updateFolder stays acyclic and keeps truthy
ids, on any state satisfying both. -/
theorem updateFolder_preserves {fs : List Folder} {id : String} {u : FolderUpdates}
    (hac : Acyclic fs) (hne : IdsNonEmpty fs) :
    Acyclic (updateFolder fs id u).2.1 ∧ IdsNonEmpty (updateFolder fs id u).2.1 := by
  have hids : ∀ (g : Folder → Folder), (∀ f, (g f).id = f.id) →
      IdsNonEmpty (mapFirstById fs id g) := by
    intro g hg f2 hf2
    rcases mapFirstById_mem hf2 with hm | ⟨f, hf, _, rfl⟩
    · exact hne f2 hm
    · exact (hg f) ▸ hne f hf
  cases hfind : fs.find? (fun f => f.id == id) with
  | none =>
    rw [updateFolder_eq_notfound hfind]
    exact ⟨hac, hne⟩
  | some f =>
    by_cases hg : cycleGuardTriggers fs id u = true
    · rw [updateFolder_eq_guard hfind hg]
      exact ⟨samepar_acyclic hac (fun _ => rfl) (fun _ => rfl), hids _ (fun _ => rfl)⟩
    · rw [Bool.not_eq_true] at hg
      rw [updateFolder_eq_ok hfind hg]
      refine ⟨?_, hids _ (fun f => applyUpdates_id f u)⟩
      cases hup : u.parentId with
      | none =>
        exact samepar_acyclic hac (fun f => applyUpdates_id f u)
          (fun f => by simp [applyUpdates, hup])
      | some newp =>
        refine @reparent_acyclic fs id (fun f => applyUpdates f u) newp hac
          (fun f => applyUpdates_id f u)
          (fun f => by simp [applyUpdates, hup]) ?_
        intro p hp
        subst hp
        exact guard_false_safe hac hne hfind hg hup

/-- Folder creation with a fresh id keeps the invariant. -/
theorem createFolder_preserves {fs : List Folder} {newId name : String}
    {color parentId : Option String} (hac : Acyclic fs) (hne : IdsNonEmpty fs)
    (hfresh : ∀ f ∈ fs, f.id ≠ newId ∧ f.parentId ≠ some newId)
    (hnid : newId ≠ "") (hself : parentId ≠ some newId) :
    Acyclic (createFolder fs newId name color parentId).2 ∧
    IdsNonEmpty (createFolder fs newId name color parentId).2 := by
  constructor
  · exact create_acyclic hac hfresh hself
  · intro f hf
    rcases List.mem_append.mp hf with hm | hm
    · exact hne f hm
    · rw [List.mem_singleton] at hm
      rw [hm]
      exact hnid

/-- Folder deletion keeps the invariant. -/
theorem deleteFolder_preserves {st : State} {id : String}
    (hac : Acyclic st.folders) (hne : IdsNonEmpty st.folders) :
    Acyclic (deleteFolder st id).folders ∧ IdsNonEmpty (deleteFolder st id).folders := by
  refine ⟨filter_acyclic hac, ?_⟩
  intro f hf
  exact hne f (List.mem_filter.mp hf).1

/-- The invariant of the model: every state reachable from an acyclic
state with truthy folder ids is again acyclic with truthy folder ids. -/
theorem reachable_wf {s0 s : State} (h : Reachable s0 s)
    (hac : Acyclic s0.folders) (hne : IdsNonEmpty s0.folders) :
    Acyclic s.folders ∧ IdsNonEmpty s.folders := by
  induction h with
  | refl => exact ⟨hac, hne⟩
  | create s2 newId name color parentId hfresh hnid hself _ ih =>
    exact createFolder_preserves ih.1 ih.2 hfresh hnid hself
  | update s2 id u _ ih => exact updateFolder_preserves ih.1 ih.2
  | delete s2 id _ ih => exact deleteFolder_preserves ih.1 ih.2
  | move s2 sessionId folderId _ ih => exact ih

theorem mapFirstById_eq_self {fs : List Folder} {id : String} {g : Folder → Folder}
    (h : ∀ f, g f = f) : mapFirstById fs id g = fs := by
  induction fs with
  | nil => rfl
  | cons f rest ih =>
    rw [mapFirstById]
    split
    · rw [h f]
    · rw [ih]

theorem mapFirstById_mem_of_ne {fs : List Folder} {id : String} {g : Folder → Folder}
    {f : Folder} (hf : f ∈ fs) (hne : f.id ≠ id) : f ∈ mapFirstById fs id g := by
  induction fs with
  | nil => cases hf
  | cons a rest ih =>
    rw [mapFirstById]
    rcases List.mem_cons.mp hf with rfl | hf
    · have : (f.id == id) = false := by simpa using hne
      rw [this]
      simp
    · split
      · exact List.mem_cons_of_mem _ hf
      · exact List.mem_cons_of_mem _ (ih hf)

/-- A forest in which every folder is a root has no descendant pairs. -/
theorem acyclic_of_all_root {fs : List Folder}
    (h : ∀ f ∈ fs, f.parentId = none) : Acyclic fs := by
  intro x hx
  refine no_desc_of_no_child (fun f hf hp => ?_) hx
  rw [h f hf] at hp
  cases hp

/-- Description of all descendant pairs of the concrete forest fsW. -/
theorem desc_fsW {x y : String} (h : Desc fsW x y) :
    (x = "a" ∧ (y = "b" ∨ y = "c")) ∨ (x = "b" ∧ y = "c") := by
  induction h with
  | @child x1 f hf hp =>
    simp only [fsW, List.mem_cons, List.not_mem_nil, or_false] at hf
    rcases hf with rfl | rfl | rfl
    · simp [A] at hp
    · obtain rfl : x1 = "a" := by simpa [B] using hp.symm
      exact Or.inl ⟨rfl, Or.inl rfl⟩
    · obtain rfl : x1 = "b" := by simpa [C] using hp.symm
      exact Or.inr ⟨rfl, rfl⟩
  | @tail x1 y1 f hf hp hd ih =>
    simp only [fsW, List.mem_cons, List.not_mem_nil, or_false] at hf
    rcases hf with rfl | rfl | rfl
    · simp [A] at hp
    · obtain rfl : x1 = "a" := by simpa [B] using hp.symm
      rcases ih with ⟨hb, _⟩ | ⟨_, hc⟩
      · simp [B] at hb
      · exact Or.inl ⟨rfl, Or.inr hc⟩
    · obtain rfl : x1 = "b" := by simpa [C] using hp.symm
      rcases ih with ⟨hb, _⟩ | ⟨hb, _⟩
      · simp [C] at hb
      · simp [C] at hb

theorem acyclic_fsW : Acyclic fsW := by
  intro x hx
  rcases desc_fsW hx with ⟨rfl, h | h⟩ | ⟨rfl, h⟩ <;> exact absurd h (by decide)

theorem memB : B ∈ fsW := List.mem_cons_of_mem _ (List.mem_cons_self _ _)

theorem memC : C ∈ fsW := by
  simp [fsW]

theorem desc_ab : Desc fsW "a" "b" := Desc.child B memB rfl

theorem desc_bc : Desc fsW "b" "c" := Desc.child C memC rfl

theorem desc_ac : Desc fsW "a" "c" := Desc.tail B memB rfl desc_bc

/-- Specification of the stable sort used by the sibling renderers:
permutation of the input, sorted by order, and elements of equal order
keep their relative input positions. -/
theorem sortByOrder_spec (l : List Folder) :
    (l.mergeSort byOrder).Perm l ∧
    (l.mergeSort byOrder).Pairwise (fun a b => a.order ≤ b.order) ∧
    ∀ v : Int, (l.mergeSort byOrder).filter (fun f => f.order == v) =
      l.filter (fun f => f.order == v) := by
  have htrans : ∀ a b c : Folder, byOrder a b → byOrder b c → byOrder a c := by
    intro a b c h1 h2
    simp only [byOrder, decide_eq_true_iff] at h1 h2 ⊢
    omega
  have htotal : ∀ a b : Folder, byOrder a b || byOrder b a := by
    intro a b
    simp only [byOrder]
    rcases Int.le_total a.order b.order with h | h <;> simp [h]
  refine ⟨List.mergeSort_perm l byOrder, ?_, ?_⟩
  · exact (List.sorted_mergeSort htrans htotal l).imp
      (fun h => by simpa [byOrder, decide_eq_true_iff] using h)
  · intro v
    have hval : ∀ f ∈ l.filter (fun f => f.order == v), f.order = v := by
      intro f hf
      simpa using (List.mem_filter.mp hf).2
    have hpw : (l.filter (fun f => f.order == v)).Pairwise (fun a b => byOrder a b = true) := by
      refine List.pairwise_of_forall_mem_list ?_
      intro a ha b hb
      simp [byOrder, hval a ha, hval b hb]
    have hsub : (l.filter (fun f => f.order == v)).Sublist (l.mergeSort byOrder) :=
      List.sublist_mergeSort htrans htotal hpw (List.filter_sublist l)
    have hself : (l.filter (fun f => f.order == v)).filter (fun f => f.order == v) =
        l.filter (fun f => f.order == v) := by
      apply List.filter_eq_self.mpr
      intro a ha
      exact (List.mem_filter.mp ha).2
    have hsub2 : (l.filter (fun f => f.order == v)).Sublist
        ((l.mergeSort byOrder).filter (fun f => f.order == v)) := by
      have h2 := List.Sublist.filter (fun f => f.order == v) hsub
      rwa [hself] at h2
    have hlen : ((l.mergeSort byOrder).filter (fun f => f.order == v)).length =
        (l.filter (fun f => f.order == v)).length :=
      ((List.mergeSort_perm l byOrder).filter _).length_eq
    exact (hsub2.eq_of_length hlen.symm).symm

theorem memA : A ∈ fsW := List.mem_cons_self _ _

theorem idsne_fsW : IdsNonEmpty fsW := by
  intro f hf
  simp only [fsW, List.mem_cons, List.not_mem_nil, or_false] at hf
  rcases hf with rfl | rfl | rfl <;> decide

/-- C1 counterexample: in a model state holding a folder whose id is the
empty string, the request parentId equal to that id is in the rejection
set of the claim, yet the guard is bypassed (the empty string is falsy),
the folder is mutated into its own parent, the call persists and returns
the folder instead of null. -/
theorem claim_C1_counterexample :
    ("" = "" ∨ ("" : String) ∈ getDescendantFolderIds fsE "") ∧
    updateFolder fsE "" { parentId := some (some "") } =
      (some folderE2, [folderE2], true) ∧
    fsE ≠ [folderE2] := by
  refine ⟨Or.inl rfl, by decide, by decide⟩

/-- C1 (amended): on every model state whose folder ids are all non-empty
and every existing folder id, updateFolder with a parentId equal to the
id or inside its descendant listing returns null and changes and persists
nothing, while a parentId outside that set is accepted and applied. -/
theorem claim_C1_cycle_guard (fs : List Folder) (id X : String)
    (hne : IdsNonEmpty fs) (hid : ∃ f ∈ fs, f.id = id) :
    ((X = id ∨ X ∈ getDescendantFolderIds fs id) →
      updateFolder fs id { parentId := some (some X) } = (none, fs, false)) ∧
    (X ≠ id → X ∉ getDescendantFolderIds fs id →
      ∃ f, fs.find? (fun f => f.id == id) = some f ∧
        updateFolder fs id { parentId := some (some X) } =
          (some { f with parentId := some X },
           mapFirstById fs id (fun f => { f with parentId := some X }), true)) := by
  obtain ⟨f0, hf0, hf0id⟩ := hid
  obtain ⟨f1, hfind⟩ : ∃ f, fs.find? (fun f => f.id == id) = some f := by
    apply Option.isSome_iff_exists.mp
    rw [List.find?_isSome]
    exact ⟨f0, hf0, by simp [hf0id]⟩
  have hf1id : f1.id = id := by simpa using List.find?_some hfind
  have hidne : id ≠ "" := hf1id ▸ hne f1 (List.mem_of_find?_eq_some hfind)
  constructor
  · intro hX
    have hXne : X ≠ "" := by
      rcases hX with rfl | hX
      · exact hidne
      · obtain ⟨f2, hf2, hf2id⟩ := exists_folder_of_mem_gDFIFuel hX
        exact hf2id ▸ hne f2 hf2
    have hguard : cycleGuardTriggers fs id { parentId := some (some X) } = true := by
      simp only [cycleGuardTriggers, Bool.and_eq_true, Bool.not_eq_eq_eq_not,
        Bool.not_false, Bool.or_eq_true, beq_iff_eq]
      refine ⟨by simpa using hXne, ?_⟩
      rcases hX with rfl | hX
      · exact Or.inl rfl
      · exact Or.inr (by simpa using hX)
    rw [updateFolder_eq_guard hfind hguard]
    show ((none : Option Folder), mapFirstById fs id (fun f => f), false) =
      ((none : Option Folder), fs, false)
    rw [mapFirstById_eq_self (fun f => rfl)]
  · intro hX1 hX2
    have hguard : cycleGuardTriggers fs id { parentId := some (some X) } = false := by
      by_cases hXe : X = ""
      · simp [cycleGuardTriggers, hXe]
      · simp [cycleGuardTriggers, hXe, hX1, hX2]
    refine ⟨f1, hfind, ?_⟩
    rw [updateFolder_eq_ok hfind hguard]
    rfl

theorem claim_C1_witness :
    updateFolder fsW "a" { parentId := some (some "c") } = (none, fsW, false) ∧
    updateFolder fsW "a" { parentId := some (some "zz") } =
      (some { A with parentId := some "zz" },
       mapFirstById fsW "a" (fun f => { f with parentId := some "zz" }), true) := by
  constructor
  · exact (claim_C1_cycle_guard fsW "a" "c" idsne_fsW ⟨A, memA, rfl⟩).1
      (Or.inr (by decide))
  · obtain ⟨f, hfind, heq⟩ := (claim_C1_cycle_guard fsW "a" "zz" idsne_fsW
      ⟨A, memA, rfl⟩).2 (by decide) (by decide)
    have h2 : fsW.find? (fun f => f.id == "a") = some A := rfl
    obtain rfl : A = f := by injection h2.symm.trans hfind
    exact heq

/-- C2 counterexample: from the acyclic one-folder forest whose folder id
is the empty string, one updateFolder step reaches a state in which that
folder is its own parent, a cycle; the claim fails on states holding an
empty-string id. -/
theorem claim_C2_counterexample :
    Reachable stE stE2 ∧ Acyclic stE.folders ∧ ¬ Acyclic stE2.folders := by
  refine ⟨?_, ?_, ?_⟩
  · exact Reachable.update stE stE "" { parentId := some (some "") } (Reachable.refl stE)
  · apply acyclic_of_all_root
    intro f hf
    simp only [stE, fsE, List.mem_cons, List.not_mem_nil, or_false] at hf
    rw [hf]
    rfl
  · intro hA
    exact hA "" (Desc.child folderE2 (List.mem_cons_self _ _) rfl)

/-- C2 (amended): acyclicity is an invariant of the model on states whose
folder ids are non-empty: every state reachable by createFolder (with
fresh generated ids), updateFolder, deleteFolder and moveSessionToFolder
from an acyclic forest with non-empty ids is acyclic. -/
theorem claim_C2_acyclicity_invariant (s0 s : State) (h : Reachable s0 s)
    (hac : Acyclic s0.folders) (hne : IdsNonEmpty s0.folders) :
    Acyclic s.folders :=
  (reachable_wf h hac hne).1

theorem claim_C2_witness :
    Acyclic (createFolder fsW "folder-9" "New" none (some "a")).2 := by
  have hr : Reachable stW
      { stW with folders := (createFolder fsW "folder-9" "New" none (some "a")).2 } :=
    Reachable.create stW stW "folder-9" "New" none (some "a")
      (by decide) (by decide) (by decide) (Reachable.refl stW)
  exact claim_C2_acyclicity_invariant stW _ hr acyclic_fsW idsne_fsW

/-- C3: on an acyclic forest, deleteFolder removes exactly the target and
its descendants from the folder list, retains every other folder, drops
exactly the assignments pointing at a removed id, and leaves no
assignment pointing at a removed folder. -/
theorem claim_C3_delete_cascade (st : State) (id : String)
    (hac : Acyclic st.folders) (hid : ∃ f ∈ st.folders, f.id = id) :
    (∀ f : Folder, f ∈ (deleteFolder st id).folders ↔
      f ∈ st.folders ∧ f.id ≠ id ∧ ¬ Desc st.folders id f.id) ∧
    (∀ s v, (deleteFolder st id).sessionFolders s = some v →
      v ≠ id ∧ ¬ Desc st.folders id v ∧ st.sessionFolders s = some v) ∧
    (∀ s v, (deleteFolder st id).sessionFolders s = some v →
      ∀ f ∈ st.folders, f.id = v → f ∈ (deleteFolder st id).folders) := by
  have hmem : ∀ w : String,
      w ∈ id :: getDescendantFolderIds st.folders id ↔
      (w = id ∨ Desc st.folders id w) := by
    intro w
    simp [mem_gDFI_iff_desc hac]
  have hfolders : ∀ f : Folder, f ∈ (deleteFolder st id).folders ↔
      f ∈ st.folders ∧ f.id ≠ id ∧ ¬ Desc st.folders id f.id := by
    intro f
    show f ∈ st.folders.filter _ ↔ _
    rw [List.mem_filter]
    constructor
    · rintro ⟨h1, h2⟩
      have h3 : f.id ∉ id :: getDescendantFolderIds st.folders id := by
        simpa using h2
      rw [hmem] at h3
      push_neg at h3
      exact ⟨h1, h3⟩
    · rintro ⟨h1, h2, h3⟩
      refine ⟨h1, ?_⟩
      have h4 : f.id ∉ id :: getDescendantFolderIds st.folders id := by
        rw [hmem]
        push_neg
        exact ⟨h2, h3⟩
      simpa using h4
  have hsome : ∀ s v0, st.sessionFolders s = some v0 →
      (deleteFolder st id).sessionFolders s =
        if (id :: getDescendantFolderIds st.folders id).contains v0 then none
        else some v0 := by
    intro s v0 hsf
    show (match st.sessionFolders s with
      | some w =>
        if (id :: getDescendantFolderIds st.folders id).contains w then none
        else some w
      | none => (none : Option String)) = _
    rw [hsf]
  have hnone : ∀ s, st.sessionFolders s = none →
      (deleteFolder st id).sessionFolders s = none := by
    intro s hsf
    show (match st.sessionFolders s with
      | some w =>
        if (id :: getDescendantFolderIds st.folders id).contains w then none
        else some w
      | none => (none : Option String)) = _
    rw [hsf]
  have hsess : ∀ s v, (deleteFolder st id).sessionFolders s = some v →
      v ≠ id ∧ ¬ Desc st.folders id v ∧ st.sessionFolders s = some v := by
    intro s v hsv
    cases hsf : st.sessionFolders s with
    | none =>
      rw [hnone s hsf] at hsv
      cases hsv
    | some v0 =>
      rw [hsome s v0 hsf] at hsv
      by_cases hc : (id :: getDescendantFolderIds st.folders id).contains v0 = true
      · rw [if_pos hc] at hsv
        cases hsv
      · rw [if_neg hc] at hsv
        obtain rfl : v0 = v := by injection hsv
        have h4 : v0 ∉ id :: getDescendantFolderIds st.folders id := by
          simpa using hc
        rw [hmem] at h4
        push_neg at h4
        exact ⟨h4.1, h4.2, rfl⟩
  refine ⟨hfolders, hsess, ?_⟩
  intro s v hsv f hf hfid
  obtain ⟨h1, h2, h3⟩ := hsess s v hsv
  exact (hfolders f).mpr ⟨hf, by rw [hfid]; exact h1, by rw [hfid]; exact h2⟩

theorem claim_C3_witness :
    C ∉ (deleteFolder stW "a").folders ∧
    (deleteFolder stW "a").sessionFolders "s1" = none := by
  constructor
  · intro hmem
    have h := ((claim_C3_delete_cascade stW "a" acyclic_fsW ⟨A, memA, rfl⟩).1 C).mp hmem
    exact h.2.2 desc_ac
  · rfl

/-- C4: on every acyclic forest and folder f in it, the listing
getDescendantFolderIds of f.id satisfies the depth-first pre-order
recurrence over the child relation, enumerates exactly the ids reachable
from f.id, and holds neither f.id itself nor any ancestor of f.id. -/
theorem claim_C4_descendant_enumeration (fs : List Folder) (f : Folder)
    (hac : Acyclic fs) (hf : f ∈ fs) :
    (∀ y, y ∈ getDescendantFolderIds fs f.id ↔ Desc fs f.id y) ∧
    f.id ∉ getDescendantFolderIds fs f.id ∧
    (∀ a, Desc fs a f.id → a ∉ getDescendantFolderIds fs f.id) ∧
    getDescendantFolderIds fs f.id =
      (childrenOf fs f.id).flatMap (fun c => c.id :: getDescendantFolderIds fs c.id) := by
  refine ⟨fun y => mem_gDFI_iff_desc hac, ?_, ?_, ?_⟩
  · intro hmem
    exact hac f.id ((mem_gDFI_iff_desc hac).mp hmem)
  · intro a hanc hmem
    exact hac a (Desc.trans hanc ((mem_gDFI_iff_desc hac).mp hmem))
  · cases hlen : fs.length with
    | zero =>
      have hnil : fs = [] := List.length_eq_zero.mp hlen
      subst hnil
      simp [getDescendantFolderIds, gDFIFuel, childrenOf]
    | succ k =>
      show gDFIFuel fs fs.length f.id = _
      rw [hlen]
      simp only [gDFIFuel]
      apply List.flatMap_congr
      intro c hc
      have hcfs : c ∈ fs := (mem_childrenOf.mp hc).1
      have hdesc : Desc fs f.id c.id := Desc.child c hcfs (mem_childrenOf.mp hc).2
      have hne : c.id ≠ f.id := fun he => hac f.id (he ▸ hdesc)
      congr 1
      have hstep : gDFIFuel fs k c.id = gDFIFuel fs (k+1) c.id := by
        refine gDFIFuel_stab_aux hac k c.id f.id [c.id, f.id] ?_
          (List.mem_cons_self _ _) ?_ ?_ ?_
        · simp [hne]
        · intro a ha
          simp only [List.mem_cons, List.not_mem_nil, or_false] at ha
          rcases ha with rfl | rfl
          · exact Or.inl rfl
          · exact Or.inr hdesc
        · intro a ha
          simp only [List.mem_cons, List.not_mem_nil, or_false] at ha
          rcases ha with rfl | rfl
          · exact Or.inr (List.mem_map.mpr ⟨c, hcfs, rfl⟩)
          · exact Or.inl rfl
        · simp
          omega
      rw [hstep, gDFIFuel_stab hac c.id (by omega)]

theorem claim_C4_witness :
    B.id ∉ getDescendantFolderIds fsW B.id ∧
    "a" ∉ getDescendantFolderIds fsW B.id ∧
    ("c" ∈ getDescendantFolderIds fsW B.id ↔ Desc fsW B.id "c") :=
  ⟨(claim_C4_descendant_enumeration fsW B acyclic_fsW memB).2.1,
   (claim_C4_descendant_enumeration fsW B acyclic_fsW memB).2.2.1 "a" desc_ab,
   (claim_C4_descendant_enumeration fsW B acyclic_fsW memB).1 "c"⟩

/-- C10: updateFolder on an unknown id returns null and changes nothing;
on a known id, with the cycle guard not triggered, exactly the fields
present in the update are written to that folder, absent fields keep
their prior values, and every folder with a different id stays in the
list. -/
theorem claim_C10_partial_update (fs : List Folder) (id : String) (u : FolderUpdates) :
    ((∀ f ∈ fs, f.id ≠ id) → updateFolder fs id u = (none, fs, false)) ∧
    (∀ f, fs.find? (fun f => f.id == id) = some f →
      cycleGuardTriggers fs id u = false →
      updateFolder fs id u =
        (some (applyUpdates f u), mapFirstById fs id (fun g => applyUpdates g u), true) ∧
      (∀ nm, u.name = some nm → (applyUpdates f u).name = nm) ∧
      (u.name = none → (applyUpdates f u).name = f.name) ∧
      (∀ cl, u.color = some cl → (applyUpdates f u).color = cl) ∧
      (u.color = none → (applyUpdates f u).color = f.color) ∧
      (∀ p, u.parentId = some p → (applyUpdates f u).parentId = p) ∧
      (u.parentId = none → (applyUpdates f u).parentId = f.parentId) ∧
      (∀ o, u.order = some o → (applyUpdates f u).order = o) ∧
      (u.order = none → (applyUpdates f u).order = f.order) ∧
      (applyUpdates f u).id = f.id ∧
      (∀ g ∈ fs, g.id ≠ id → g ∈ (updateFolder fs id u).2.1)) := by
  constructor
  · intro h
    apply updateFolder_eq_notfound
    apply List.find?_eq_none.mpr
    intro f hf
    simpa using h f hf
  · intro f hfind hguard
    refine ⟨updateFolder_eq_ok hfind hguard,
      fun nm h => by simp [applyUpdates, h],
      fun h => by simp [applyUpdates, h],
      fun cl h => by simp [applyUpdates, h],
      fun h => by simp [applyUpdates, h],
      fun p h => by simp [applyUpdates, h],
      fun h => by simp [applyUpdates, h],
      fun o h => by simp [applyUpdates, h],
      fun h => by simp [applyUpdates, h],
      rfl, ?_⟩
    intro g hg hgne
    rw [updateFolder_eq_ok hfind hguard]
    exact mapFirstById_mem_of_ne hg hgne

theorem claim_C10_witness :
    updateFolder fsW "zz" uW = (none, fsW, false) ∧
    updateFolder fsW "b" uW =
      (some (applyUpdates B uW), mapFirstById fsW "b" (fun g => applyUpdates g uW), true) ∧
    (applyUpdates B uW).name = "Beta2" ∧
    (applyUpdates B uW).parentId = B.parentId ∧
    A ∈ (updateFolder fsW "b" uW).2.1 := by
  have h0 := (claim_C10_partial_update fsW "zz" uW).1 (by decide)
  obtain ⟨he, hnm, _, _, _, _, hp2, _, _, _, hframe⟩ :=
    (claim_C10_partial_update fsW "b" uW).2 B rfl rfl
  exact ⟨h0, he, hnm "Beta2" rfl, hp2 rfl, hframe A memA (by decide)⟩

/-- C5: getDescendantFolderIds terminates on every acyclic folder forest
at unbounded nesting depth: the fueled recursion is stationary from the
folder count on, so the unbounded source recursion reaches a fixed result
on acyclic input whatever the depth. -/
theorem claim_C5_termination (fs : List Folder) (x : String) (hac : Acyclic fs)
    (n : Nat) (hn : fs.length ≤ n) :
    gDFIFuel fs n x = getDescendantFolderIds fs x :=
  gDFIFuel_stab hac x hn

theorem claim_C5_witness :
    Acyclic fsW ∧ gDFIFuel fsW 10 "a" = getDescendantFolderIds fsW "a" :=
  ⟨acyclic_fsW, claim_C5_termination fsW "a" acyclic_fsW 10 (by decide)⟩

/-- C8: createFolder assigns the new folder an order equal to the number
of folders already carrying the same parentId, and appends exactly that
one record, leaving the existing folders unchanged as a prefix. -/
theorem claim_C8_create_order (fs : List Folder) (newId name : String)
    (color parentId : Option String) :
    (createFolder fs newId name color parentId).2 =
      fs ++ [(createFolder fs newId name color parentId).1] ∧
    (createFolder fs newId name color parentId).1.order =
      ((fs.filter (fun f => f.parentId == parentId)).length : Int) ∧
    (createFolder fs newId name color parentId).1.id = newId ∧
    (createFolder fs newId name color parentId).1.parentId = parentId :=
  ⟨rfl, rfl, rfl, rfl⟩

/-- C6: when the storage read or the JSON parse fails during
initialization, loadFolders yields the empty list and loadSessionFolders
the empty mapping; both loaders are total functions of the outcome, so no
failure escapes to the caller. -/
theorem claim_C6_load_defaults (parseFolders : String → Except String (List Folder))
    (parseMap : String → Except String SessionMap) :
    (∀ e, loadFolders (.error e) parseFolders = []) ∧
    (∀ content e, parseFolders content = .error e →
      loadFolders (.ok content) parseFolders = []) ∧
    (∀ e s, loadSessionFolders (.error e) parseMap s = none) ∧
    (∀ content e, parseMap content = .error e →
      ∀ s, loadSessionFolders (.ok content) parseMap s = none) := by
  refine ⟨fun e => rfl, fun content e h => ?_, fun e s => rfl, fun content e h s => ?_⟩
  · simp [loadFolders, h]
  · simp [loadSessionFolders, h]

theorem claim_C6_witness :
    loadFolders (.error "disk gone") parseFailF = [] ∧
    loadFolders (.ok "not json") parseFailF = [] ∧
    loadSessionFolders (.ok "not json") parseFailM "s1" = none := by
  refine ⟨(claim_C6_load_defaults parseFailF parseFailM).1 "disk gone", ?_, ?_⟩
  · exact (claim_C6_load_defaults parseFailF parseFailM).2.1 "not json" "parse" rfl
  · exact (claim_C6_load_defaults parseFailF parseFailM).2.2.2 "not json" "parse" rfl "s1"

/-- C7: in the tree-view projection each sibling group (the root group
and the child group of each folder) is a permutation of the matching
filter of the folder list, is sorted by order ascending, and folders of
equal order keep their relative encounter order (stable sort). -/
theorem claim_C7_sibling_sort (fs : List Folder) :
    ((rootFoldersView fs).Perm (fs.filter (fun f => !truthyOptStr f.parentId)) ∧
     (rootFoldersView fs).Pairwise (fun a b => a.order ≤ b.order) ∧
     (∀ v : Int, (rootFoldersView fs).filter (fun f => f.order == v) =
        (fs.filter (fun f => !truthyOptStr f.parentId)).filter (fun f => f.order == v))) ∧
    ∀ folderId : String,
      (childFoldersView fs folderId).Perm
          (fs.filter (fun f => f.parentId == some folderId)) ∧
      (childFoldersView fs folderId).Pairwise (fun a b => a.order ≤ b.order) ∧
      (∀ v : Int, (childFoldersView fs folderId).filter (fun f => f.order == v) =
        (fs.filter (fun f => f.parentId == some folderId)).filter (fun f => f.order == v)) := by
  constructor
  · exact sortByOrder_spec (fs.filter (fun f => !truthyOptStr f.parentId))
  · intro folderId
    exact sortByOrder_spec (fs.filter (fun f => f.parentId == some folderId))

/-- C9 counterexample: the empty string is a non-null folder id, but
moveSessionToFolder treats it as falsy and clears the assignment, so
getSessionFolder returns null instead of the assigned id. -/
theorem claim_C9_counterexample :
    getSessionFolder (moveSessionToFolder sfW0 "s1" (some "")) "s1" = none ∧
    getSessionFolder (moveSessionToFolder sfW0 "s1" (some "")) "s1" ≠ some "" := by
  constructor
  · rfl
  · intro h
    cases h

/-- C9 (amended): for every truthy (non-empty) folder id f, after
moveSessionToFolder s f the call getSessionFolder s returns f, after
moveSessionToFolder s null it returns null, and in both cases the
assignment of every other session is unchanged. -/
theorem claim_C9_assignment_roundtrip (sf : SessionMap) (s f : String) (hf : f ≠ "") :
    getSessionFolder (moveSessionToFolder sf s (some f)) s = some f ∧
    getSessionFolder (moveSessionToFolder sf s none) s = none ∧
    ∀ g : Option String, ∀ t : String, t ≠ s →
      moveSessionToFolder sf s g t = sf t := by
  have htr : truthyOptStr (some f) = true := by
    simp [truthyOptStr, hf]
  refine ⟨?_, ?_, ?_⟩
  · simp [moveSessionToFolder, getSessionFolder, htr]
  · simp [moveSessionToFolder, getSessionFolder, truthyOptStr]
  · intro g t ht
    have hts : (t == s) = false := by simpa using ht
    by_cases hg : truthyOptStr g = true
    · simp [moveSessionToFolder, hg, hts]
    · simp only [Bool.not_eq_true] at hg
      simp [moveSessionToFolder, hg, hts]

theorem claim_C9_witness :
    getSessionFolder (moveSessionToFolder sfW0 "s1" (some "folder-1")) "s1" =
      some "folder-1" ∧
    moveSessionToFolder sfW0 "s1" (some "folder-1") "s2" = none := by
  constructor
  · exact (claim_C9_assignment_roundtrip sfW0 "s1" "folder-1" (by decide)).1
  · exact (claim_C9_assignment_roundtrip sfW0 "s1" "folder-1" (by decide)).2.2
      (some "folder-1") "s2" (by decide)

end SimplyTermFolders
